import Mathlib

/- Shallow embedding of the account-state core of iota.hub.js:
   src/lib/sync.js, src/lib/transfer.js, src/lib/prepareTransfers.js,
   src/lib/address.js. Collaborator calls (iota.crypto.js signing and address
   validation, ledger queries) are taken as parameters; everything the repository
   itself computes is embedded as executable definitions. -/

namespace IotaHub

/-- Entry of the used-key-index registry `state.indexes` (src/lib/sync.js). An entry
is either a plain number or a two-element array `[lo, hi]`. -/
inductive Entry where
  | point : Int → Entry
  | range : Int → Int → Entry
deriving DecidableEq, Repr, Inhabited

/-- Left bound of an entry: source helper `getBound(a, 0)` in `markKeyAsUsed`. -/
def getBound0 : Entry → Int
  | .point n => n
  | .range a _ => a

/-- Right bound of an entry: source helper `getBound(a, 1)` in `markKeyAsUsed`. -/
def getBound1 : Entry → Int
  | .point n => n
  | .range _ b => b

/-- JavaScript `Array.prototype.findIndex`, with `none` standing for `-1`. -/
def findIndex (p : α → Bool) : List α → Option Nat
  | [] => none
  | x :: xs => if p x then some 0 else (findIndex p xs).map (· + 1)

/-- Source `isUsedKey(indexes, index)` (src/lib/sync.js:356): the index is used when
some registry entry covers it (`index >= i[0] && index <= i[1]` for a range entry,
`i === index` for a point entry). -/
def isUsedKey (indexes : List Entry) (index : Int) : Bool :=
  (findIndex (fun e =>
    match e with
    | .range a b => decide (index ≥ a) && decide (index ≤ b)
    | .point n => index == n) indexes).isSome

/-- Decimal string a registry entry converts to when JavaScript's default `sort`
compares elements (`String(n)` for a number, `String([a,b]) = "a,b"` for a range). -/
def entryKey : Entry → List Char
  | .point n => (toString n).data
  | .range a b => (toString a).data ++ [','] ++ (toString b).data

/-- Lexicographic code-unit comparison performed by JavaScript's default `sort`
comparator on the string forms of the elements. -/
def charListLe : List Char → List Char → Bool
  | [], _ => true
  | _ :: _, [] => false
  | a :: as, b :: bs =>
    if a.val < b.val then true
    else if b.val < a.val then false
    else charListLe as bs

/-- Insertion step of a stable sort: the new element lands in front of the first
element it compares less-or-equal to. -/
def sortInsert (le : α → α → Bool) (e : α) : List α → List α
  | [] => [e]
  | x :: xs => if le e x then e :: x :: xs else x :: sortInsert le e xs

/-- Stable insertion sort modelling JavaScript's `Array.prototype.sort` (stable per
ES2019). Elements earlier in the input stay in front of comparator-equal elements. -/
def jsSort (le : α → α → Bool) : List α → List α
  | [] => []
  | x :: xs => sortInsert le x (jsSort le xs)

/-- Ascending order on registry entries by JavaScript's default sort comparator. -/
def entryLe (a b : Entry) : Bool := charListLe (entryKey a) (entryKey b)

/-- Source `markKeyAsUsed(indexes, index)` (src/lib/sync.js:372-390): no-op on a used
index; otherwise merge with the entry starting at `index + 1` and/or the entry ending
at `index - 1`, or push a new point entry and re-sort with JavaScript's default
(lexicographic string) sort. -/
def markKeyAsUsed (indexes : List Entry) (index : Int) : List Entry :=
  if isUsedKey indexes index then indexes
  else
    match findIndex (fun e => getBound0 e == index + 1) indexes,
          findIndex (fun e => getBound1 e == index - 1) indexes with
    | some i, some j =>
      (indexes.set i
        (.range (getBound0 (indexes.getD j default)) (getBound1 (indexes.getD i default)))).eraseIdx j
    | none, some j =>
      indexes.set j (.range (getBound0 (indexes.getD j default)) index)
    | some i, none =>
      indexes.set i (.range index (getBound1 (indexes.getD i default)))
    | none, none =>
      jsSort entryLe (indexes ++ [.point index])

/-- Registry obtained by marking a sequence of indices starting from the empty
registry. -/
def applyTrace (t : List Int) : List Entry :=
  t.foldl markKeyAsUsed []

/-- View of the registry as inclusive intervals, reading a point entry as the
degenerate single-value interval of the spec. -/
def toIntervals (l : List Entry) : List (Int × Int) :=
  l.map fun e => (getBound0 e, getBound1 e)

/-- Claim-side sortedness of the registry collection (claim C2, spec words): the
stored intervals appear in ascending numeric order. -/
def isSortedRegistry : List Entry → Bool
  | [] => true
  | [_] => true
  | a :: b :: rest => decide (getBound1 a < getBound0 b) && isSortedRegistry (b :: rest)

/-- Well-formed registry entry: lower bound at most upper bound. -/
def wfEntry (e : Entry) : Prop := getBound0 e ≤ getBound1 e

/-- Two registry entries neither touch nor overlap: the minimality invariant of the
interval representation. -/
def sep (a b : Entry) : Prop :=
  getBound1 a + 1 < getBound0 b ∨ getBound1 b + 1 < getBound0 a

/-- Entry `e` covers the integer `k`. -/
def covers (e : Entry) (k : Int) : Prop :=
  getBound0 e ≤ k ∧ k ≤ getBound1 e

/-- Left fold that stops at the first error: the form of a JavaScript loop whose body
can throw. -/
def foldE (f : β → α → Except ε β) : β → List α → Except ε β
  | b, [] => .ok b
  | b, a :: l =>
    match f b a with
    | .error e => .error e
    | .ok b' => foldE f b' l

/-- Address or Input record of the state (sync.js `Address` typedef): identifier, key
index, security level and balance. -/
structure AddrRec where
  address : String
  index : Int
  security : Nat
  balance : Int
deriving DecidableEq, Repr, Inhabited

/-- Transaction object (sync.js `Transaction` typedef), restricted to the fields the
modelled code reads. `persistence` is `none` when the field is absent (JavaScript
`undefined`). -/
structure Tx where
  hash : String
  address : String
  value : Int
  persistence : Option Bool
  signatureMessageFragment : String
  trunkTransaction : String
  bundle : String
  currentIndex : Int
  lastIndex : Int
deriving DecidableEq, Repr, Inhabited

/-- Account state (sync.js `State` typedef). `keyIndex` is `none` when the field is
absent; JavaScript treats both `undefined` and `0` as falsy. -/
structure State where
  addresses : List AddrRec
  inputs : List AddrRec
  transfers : List Tx
  indexes : List Entry
  keyIndex : Option Int
deriving DecidableEq, Repr, Inhabited

/-- Errors of the modelled operations. `typeError` models the JavaScript TypeError
thrown when a property of `undefined` is read. -/
inductive Err where
  | typeError
  | inconsistentLocalState
  | noInputsAvailable
  | insufficientBalance
  | invalidRemainderAddress
  | lastKeyIndexNotFound
deriving DecidableEq, Repr

/-- External cryptographic collaborator (iota.crypto.js `signing`): only its boolean
verdict reaches the modelled code. -/
structure Crypto where
  validateSignatures : String → List String → String → Bool

/-- JavaScript truthiness of a possibly-absent boolean field. -/
def truthy (b : Option Bool) : Bool := b == some true

/-- Fragment-chain collection loop of `_validateSignatures` (src/lib/sync.js:412-418):
push the current fragment, follow `trunkTransaction` inside `txs`, stop after `n`
fragments or when the trunk is missing. -/
def collectFragments (txs : List Tx) : Nat → Tx → List String
  | 0, _ => []
  | n + 1, tx =>
    tx.signatureMessageFragment ::
      match txs.find? (fun t => t.hash == tx.trunkTransaction) with
      | none => []
      | some t => collectFragments txs n t

/-- Source `_validateSignatures(txs, tx, signatureFragmentsLength)`
(src/lib/sync.js:407-426): the collected chain must have exactly `n` fragments and
pass the external signature check. -/
def validateSignaturesOf (crypto : Crypto) (txs : List Tx) (tx : Tx) (n : Nat) : Bool :=
  let signatureFragments := collectFragments txs n tx
  signatureFragments.length == n &&
    crypto.validateSignatures tx.address signatureFragments tx.bundle

/-- One iteration of the debit-processing loop of `applyTransfersDiff`
(src/lib/sync.js:258-288). The `security` lookup searches `state.addresses` only; when
the debited address is not there the source throws a TypeError. The accumulator also
carries the set of already-seen spent addresses. The source splices a matched input
out before the key-index check; on the error path that difference is unobservable
because the state is discarded. -/
def processSpendingStep (crypto : Crypto) (diffCopy : List Tx)
    (acc : State × List String) (tx : Tx) : Except Err (State × List String) :=
  match acc.1.addresses.find? (fun a => a.address == tx.address) with
  | none => .error .typeError
  | some rec0 =>
    if !acc.2.contains tx.address &&
        (truthy tx.persistence || validateSignaturesOf crypto diffCopy tx rec0.security) then
      match findIndex (fun input => input.address == tx.address) acc.1.inputs with
      | some inputIndex =>
        if (acc.1.inputs.getD inputIndex default).index ≠ 0 then
          .ok ({ acc.1 with
                  inputs := acc.1.inputs.eraseIdx inputIndex
                  addresses := acc.1.addresses ++ [acc.1.inputs.getD inputIndex default]
                  indexes := markKeyAsUsed acc.1.indexes
                    (acc.1.inputs.getD inputIndex default).index },
               tx.address :: acc.2)
        else .error .inconsistentLocalState
      | none =>
        if rec0.index ≠ 0 then
          .ok ({ acc.1 with indexes := markKeyAsUsed acc.1.indexes rec0.index },
               tx.address :: acc.2)
        else .error .inconsistentLocalState
    else .ok (acc.1, acc.2)

/-- One move of the input-promotion loop of `applyTransfersDiff`
(src/lib/sync.js:291-296): locate the record by address in the current list and move
it to inputs. The `none` branch never fires because the record was drawn from
`state.addresses`. -/
def promoteStep (acc : State) (rec0 : AddrRec) : State :=
  match findIndex (fun a => a.address == rec0.address) acc.addresses with
  | some i =>
    { acc with
        addresses := acc.addresses.eraseIdx i
        inputs := acc.inputs ++ [acc.addresses.getD i default] }
  | none => acc

/-- Input-promotion phase of `applyTransfersDiff`: every address with positive
balance and unused key index (both judged once, at loop entry) moves to inputs. -/
def promoteInputs (state : State) : State :=
  (state.addresses.filter fun a =>
    decide (a.balance > 0) && !isUsedKey state.indexes a.index).foldl promoteStep state

/-- Ledger-merge loop of `applyTransfersDiff` (src/lib/sync.js:328-338): push a
transfer with unseen hash, otherwise update only the persistence flag. -/
def mergeTransfersStep (transfers : List Tx) (tx : Tx) : List Tx :=
  match findIndex (fun stateTx => stateTx.hash == tx.hash) transfers with
  | none => transfers ++ [tx]
  | some i => transfers.modify (fun stateTx => { stateTx with persistence := tx.persistence }) i

/-- Source `applyTransfersDiff(state, diff, eventEmitter)` (src/lib/sync.js:253-341).
The event-dispatch block (lines 298-325) only emits notifications and never modifies
the state, so it does not appear in the state model. -/
def applyTransfersDiff (crypto : Crypto) (state : State) (diff : List Tx) :
    Except Err State :=
  match foldE (processSpendingStep crypto (diff.filter fun tx => decide (tx.value ≤ 0)))
      (state, ([] : List String)) (diff.filter fun tx => decide (tx.value < 0)) with
  | .error e => .error e
  | .ok res =>
    .ok { promoteInputs res.1 with
            transfers := diff.foldl mergeTransfersStep (promoteInputs res.1).transfers }

/-- Misspelled property access `tx.persistenece` in the last filter of
`getTransfersDiff` (src/lib/sync.js:231): the field does not exist on any transaction
object, so the read always yields `undefined`. -/
def persistenece (_ : Tx) : Option Bool := none

/-- Post-fetch pipeline of `getTransfersDiff` (src/lib/sync.js:203-234), taking the
collaborator responses as arguments: `fetched` is the `findTransactionObjects` result
for the queried addresses and `inclusionStates` the `getLatestInclusion` result,
consumed positionally. -/
def getTransfersDiff (state : State) (fetched : List Tx) (inclusionStates : List Bool) :
    List Tx :=
  let txs1 := fetched.filter fun tx =>
    (findIndex (fun stateTx => stateTx.hash == tx.hash && truthy stateTx.persistence)
      state.transfers).isNone
  let txs2 := txs1 ++ state.transfers.filter fun stateTx =>
    stateTx.hash != "" && !truthy stateTx.persistence &&
      (findIndex (fun tx => tx.hash == stateTx.hash) txs1).isNone
  let txs3 := txs2.enum.map fun p => { p.2 with persistence := inclusionStates.get? p.1 }
  txs3.filter fun tx =>
    (findIndex (fun stateTx => stateTx.hash == tx.hash && stateTx.persistence != persistenece tx)
      state.transfers).isNone

/-- Eligibility filter of `getInputs` (src/lib/transfer.js:131-135): positive balance
and no unconfirmed transfer **of positive value** recorded against the address. -/
def eligibleInputs (state : State) : List AddrRec :=
  state.inputs.filter fun input =>
    decide (input.balance > 0) &&
    (findIndex (fun tx => tx.address == input.address && decide (tx.value > 0) &&
        !truthy tx.persistence) state.transfers).isNone

/-- Comparator key of `byOptimalValue` (src/lib/transfer.js:146): distance of a
balance from the still-needed amount. -/
def optimalKey (diff : Int) (a : AddrRec) : Int := |diff - a.balance|

/-- Selection loop of `getInputs` (src/lib/transfer.js:150-158): stably re-sort the
remaining pool by distance from the remaining need, take the head, repeat until the
collected total reaches the target. Fuel is the pool size; the pool can only run out
once the total covers the target, because every eligible balance is positive. -/
def selectLoop (value : Int) : Nat → List AddrRec → Int → List AddrRec →
    List AddrRec × Int
  | 0, _, total, collected => (collected, total)
  | fuel + 1, pool, total, collected =>
    if total < value then
      match jsSort (fun a b =>
          decide (optimalKey (value - total) a ≤ optimalKey (value - total) b)) pool with
      | [] => (collected, total)
      | input :: rest =>
        selectLoop value fuel rest (total + input.balance) (collected ++ [input])
    else (collected, total)

/-- Source `getInputs(state, value)` (src/lib/transfer.js:124-164). The
`Number.isInteger` guard of the source is vacuous here because values are integers by
type. -/
def getInputs (state : State) (value : Int) : Except Err (List AddrRec × Int) :=
  if (eligibleInputs state).length == 0 then
    .error .noInputsAvailable
  else if decide ((eligibleInputs state).foldl (fun sum input => sum + input.balance) 0 < value) then
    .error .insufficientBalance
  else
    .ok (selectLoop value (eligibleInputs state).length (eligibleInputs state) 0 [])

/-- Source `getInputWithLowestValue(inputs)` (src/lib/transfer.js:166-168); `none`
models the `undefined` subscript on an empty list. -/
def getInputWithLowestValue (inputs : List AddrRec) : Option AddrRec :=
  (jsSort (fun a b => decide (a.balance ≤ b.balance)) inputs).head?

/-- Source `getNewAddress(hub, state, seed, security, checksum)`
(src/lib/address.js:53-63) over an abstract address-derivation collaborator. The
guard `!state.keyIndex` is JavaScript falsiness, so it also fires when the cursor is
0. The source returns (not throws) an Error object on failure. On success the source
additionally pushes the checksum-stripped address string (not a record) into
`state.addresses`; that heterogeneous push is unused by every caller modelled here. -/
def getNewAddress (deriveAddr : Int → Nat → Bool → String) (state : State)
    (security : Nat) (checksum : Bool) : Except Err (State × String) :=
  match state.keyIndex with
  | none => .error .lastKeyIndexNotFound
  | some k =>
    if k = 0 then .error .lastKeyIndexNotFound
    else .ok ({ state with keyIndex := some (k + 1) }, deriveAddr k security checksum)

/-- Source `getRemainderAddress(hub, state, seed)` (src/lib/transfer.js:170-178):
reuse the lowest-balance input, else derive a fresh address; reading `.address` off a
returned Error object yields `undefined` (`none`). -/
def getRemainderAddress (deriveAddr : Int → Nat → Bool → String) (state : State) :
    Option String :=
  match getInputWithLowestValue state.inputs with
  | some input => some input.address
  | none =>
    match getNewAddress deriveAddr state 2 false with
    | .error _ => none
    | .ok p => some p.2

/-- Output leg passed to the builder (transfer.js `Transfer` typedef). Legs carry no
message in this model: the message-fragment path of the source is exercised by no
claim. An absent tag is `none` (`obsoleteTag` and empty-string falsiness are not
distinguished: modelled tags are `none` or nonempty). -/
structure Leg where
  address : String
  value : Int
  tag : Option String
deriving DecidableEq, Repr, Inhabited

/-- Logical bundle entry produced by one `bundle.addEntry` call of the source
(src/lib/prepareTransfers.js): slot count, address, signed value and tag. Bundle
finalization, timestamps and signing (iota.crypto.js) fill hashes and signature
fragments into the slots and never change these fields. -/
structure BundleEntry where
  sigCount : Nat
  address : String
  value : Int
  tag : String
deriving DecidableEq, Repr, Inhabited

/-- Remainder computed by the builder (src/lib/prepareTransfers.js:22): sum of input
balances minus sum of leg values. -/
def remainderOf (inputs : List AddrRec) (transfers : List Leg) : Int :=
  inputs.foldl (fun acc input => acc + input.balance) 0 -
    transfers.foldl (fun acc transfer => acc + transfer.value) 0

/-- Source `pad(str, l)` specialized to 27-tryte tags. -/
def pad27 (s : String) : String :=
  s ++ String.mk (List.replicate (27 - s.length) '9')

/-- Source `getTag(transfer)`: the leg's tag padded to 27 trytes, defaulting to all
nines. -/
def getTagOf (leg : Leg) : String :=
  pad27 (leg.tag.getD "")

/-- Entries contributed by the output legs: one entry per leg (one fragment slot,
legs carry no message here). -/
def legEntriesOf (transfers : List Leg) : List BundleEntry :=
  transfers.map fun t =>
    { sigCount := 1, address := t.address, value := t.value, tag := getTagOf t }

/-- Entries contributed by the inputs: `security` slots each, at negative balance,
tagged with the default tag of the final leg. -/
def inputEntriesOf (inputs : List AddrRec) (tag : String) : List BundleEntry :=
  inputs.map fun input =>
    { sigCount := input.security, address := input.address, value := -input.balance,
      tag := tag }

/-- Source `prepareTransfers(seed, inputs, transfers, remainderAddress)`
(src/lib/prepareTransfers.js:19-71), parameterized by the external address validator
`valid.isAddress`. Reading the tag of `transfers[transfers.length - 1]` throws a
TypeError when `transfers` is empty. Each leg contributes one entry (no messages, so
one fragment slot per leg), each input one entry of `security` slots at negative
balance and the default tag, and a positive remainder one final crediting entry. -/
def prepareTransfersBuilder (isAddress : Option String → Bool) (inputs : List AddrRec)
    (transfers : List Leg) (remainderAddress : Option String) :
    Except Err (List BundleEntry) :=
  match transfers.getLast? with
  | none => .error .typeError
  | some lastLeg =>
    if decide (remainderOf inputs transfers > 0) && !isAddress remainderAddress then
      .error .invalidRemainderAddress
    else if decide (remainderOf inputs transfers < 0) then
      .error .insufficientBalance
    else
      .ok (legEntriesOf transfers ++ inputEntriesOf inputs (getTagOf lastLeg) ++
           (if decide (remainderOf inputs transfers > 0) then
              [{ sigCount := 1, address := remainderAddress.getD "",
                 value := remainderOf inputs transfers, tag := getTagOf lastLeg }]
            else []))

/-- One state update of the caller-level `prepareTransfers` loop
(src/lib/transfer.js:60-69): splice the used input out of `inputs` (JavaScript
`splice(-1, 1)` removes the last element when `findIndex` misses), append it to
`addresses`, and mark its key index used. -/
def spendInputStep (st : State) (input : AddrRec) : State :=
  { st with
      inputs :=
        match findIndex (fun stateInput => stateInput.address == input.address) st.inputs with
        | some i => st.inputs.eraseIdx i
        | none => st.inputs.eraseIdx (st.inputs.length - 1)
      addresses := st.addresses ++ [input]
      indexes := markKeyAsUsed st.indexes input.index }

/-- Caller-level `prepareTransfers(hub, state, seed, transfers)`
(src/lib/transfer.js:50-75). The deep clone is the identity in a pure model. The
returned transaction list stands for the built entries, reversed as the source
reverses the encoded list; tryte encoding (`utils.transactionTrytes`) is external.
The source line `stateCopy.transfers.concat(...)` discards its result, so the state's
transfer ledger is left unchanged. -/
def hubPrepareTransfers (deriveAddr : Int → Nat → Bool → String)
    (isAddress : Option String → Bool) (state : State) (transfers : List Leg) :
    Except Err (State × List BundleEntry) :=
  match getInputs state (transfers.foldl (fun sum tx => sum + tx.value) 0) with
  | .error e => .error e
  | .ok res =>
    match prepareTransfersBuilder isAddress res.1 transfers
        (if res.2 - transfers.foldl (fun sum tx => sum + tx.value) 0 ≠ 0
         then getRemainderAddress deriveAddr state else none) with
    | .error e => .error e
    | .ok txs => .ok (res.1.foldl spendInputStep state, txs.reverse)

/-- Records of a state, addresses first (the concatenation order the source uses). -/
def recsOf (s : State) : List AddrRec := s.addresses ++ s.inputs

/-- Well-formedness of an account state: address identifiers and key indices are
unique across the two collections, no input's key index is retired, and the registry
entries are well-formed, pairwise disjoint and non-adjacent. -/
structure WellFormed (s : State) : Prop where
  nodupAddr : ((recsOf s).map AddrRec.address).Nodup
  nodupIdx : ((recsOf s).map AddrRec.index).Nodup
  inputsFresh : ∀ r ∈ s.inputs, isUsedKey s.indexes r.index = false
  regWf : ∀ e ∈ s.indexes, wfEntry e
  regSep : s.indexes.Pairwise sep

/-- One public operation applied successfully. -/
inductive Step : State → State → Prop where
  | applyDiff (crypto : Crypto) (diff : List Tx) (s s' : State) :
      applyTransfersDiff crypto s diff = .ok s' → Step s s'
  | prepare (deriveAddr : Int → Nat → Bool → String) (isAddress : Option String → Bool)
      (legs : List Leg) (s s' : State) (txs : List BundleEntry) :
      hubPrepareTransfers deriveAddr isAddress s legs = .ok (s', txs) → Step s s'

/-- States reachable from a starting state by the public operations. -/
inductive Reachable (s₀ : State) : State → Prop where
  | refl : Reachable s₀ s₀
  | step {s s' : State} : Reachable s₀ s → Step s s' → Reachable s₀ s'

/-- Claim-side selection pick of C5, following the spec's words: from the pool kept
in first-encountered order, take the first input whose balance is closest in absolute
difference to the remaining need. -/
def claimPick (need : Int) (pool : List AddrRec) : Option (AddrRec × List AddrRec) :=
  match findIndex (fun a => pool.all fun b =>
      decide (optimalKey need a ≤ optimalKey need b)) pool with
  | some i => some (pool.getD i default, pool.eraseIdx i)
  | none => none

/-- Claim-side selection loop of C5 (spec words): repeatedly pick the closest input,
ties by first-encountered order, until the target is covered. -/
def claimSelectLoop (target : Int) : Nat → List AddrRec → Int → List AddrRec →
    List AddrRec × Int
  | 0, _, total, chosen => (chosen, total)
  | fuel + 1, pool, total, chosen =>
    if total < target then
      match claimPick (target - total) pool with
      | some p => claimSelectLoop target fuel p.2 (total + p.1.balance) (chosen ++ [p.1])
      | none => (chosen, total)
    else (chosen, total)

/-- Claim-side selector of C5 (spec words). -/
def claimSelect (pool : List AddrRec) (target : Int) : List AddrRec × Int :=
  claimSelectLoop target pool.length pool 0 []

/-- Claim-side eligibility of C6 (spec words): positive balance and no outstanding
unconfirmed **debit** recorded against the address. -/
def claimEligibleInputs (state : State) : List AddrRec :=
  state.inputs.filter fun input =>
    decide (input.balance > 0) &&
    (findIndex (fun tx => tx.address == input.address && decide (tx.value < 0) &&
        !truthy tx.persistence) state.transfers).isNone

/-- Signature collaborator that accepts everything; used by concrete evaluations to
show that outcomes do not hinge on the external verdict. -/
def cryptoTrue : Crypto := ⟨fun _ _ _ => true⟩

/-- Concrete record constructor for scenario states. -/
def mkRec (a : String) (i : Int) (sec : Nat) (b : Int) : AddrRec :=
  { address := a, index := i, security := sec, balance := b }

/-- Empty starting state of the examples directory (`keyIndex: 0`). -/
def emptyState : State :=
  { addresses := [], inputs := [], transfers := [], indexes := [], keyIndex := some 0 }

/-- C3 scenario state: the only record is Input `{A, index 3, security 2, balance
100}`, no prior transfers. -/
def stateC3 : State :=
  { addresses := [], inputs := [mkRec "A" 3 2 100], transfers := [], indexes := [],
    keyIndex := some 4 }

/-- C3 scenario (i): already-confirmed debit of 40 against `A`. -/
def txC3a : Tx :=
  { hash := "H1", address := "A", value := -40, persistence := some true,
    signatureMessageFragment := "F1", trunkTransaction := "H2", bundle := "B1",
    currentIndex := 0, lastIndex := 1 }

/-- C3 scenario (ii): the same entry unconfirmed, with a 1-fragment chain (the trunk
hash resolves to no transaction of the diff). -/
def txC3b : Tx :=
  { txC3a with persistence := some false }

/-- C4 failing input: transfer recorded locally as unconfirmed. -/
def txC4local : Tx :=
  { hash := "H", address := "A", value := 5, persistence := some false,
    signatureMessageFragment := "", trunkTransaction := "", bundle := "B",
    currentIndex := 0, lastIndex := 0 }

/-- C4 failing input: the same transfer as the ledger returns it (fresh fetch carries
no persistence field). -/
def txC4fetched : Tx :=
  { txC4local with persistence := none }

/-- C4 failing input state: the transfer is recorded locally, unconfirmed. -/
def stateC4 : State :=
  { addresses := [mkRec "A" 1 1 5], inputs := [], transfers := [txC4local],
    indexes := [], keyIndex := some 2 }

/-- C5 counterexample pool: balances 10, 2, 4 in first-encountered order. -/
def stateC5 : State :=
  { addresses := [], inputs := [mkRec "J1" 1 1 10, mkRec "J2" 2 1 2, mkRec "J3" 3 1 4],
    transfers := [], indexes := [], keyIndex := some 4 }

/-- C5 spec example pool: balances 10, 50, 100. -/
def stateC5ex : State :=
  { addresses := [], inputs := [mkRec "I1" 1 1 10, mkRec "I2" 2 1 50, mkRec "I3" 3 1 100],
    transfers := [], indexes := [], keyIndex := some 4 }

/-- C6 counterexample: unconfirmed debit of 3 recorded against input `I1`. -/
def txC6 : Tx :=
  { hash := "H1", address := "I1", value := -3, persistence := some false,
    signatureMessageFragment := "F", trunkTransaction := "T", bundle := "B",
    currentIndex := 0, lastIndex := 0 }

/-- C6 counterexample state: one input of balance 5 with an outstanding unconfirmed
debit. -/
def stateC6 : State :=
  { addresses := [], inputs := [mkRec "I1" 1 1 5], transfers := [txC6], indexes := [],
    keyIndex := some 2 }

/-- C8 failing input state: a single spendable input of balance 5. -/
def stateC8 : State :=
  { addresses := [], inputs := [mkRec "A" 1 1 5], transfers := [], indexes := [],
    keyIndex := some 2 }

/-- C8 failing input leg: send the full balance, so no remainder arises. -/
def legC8 : Leg := { address := "B", value := 5, tag := none }

/-- C9 failing input: unconfirmed debit whose fragment chain has length 1 while the
account's security level is 2 (the trunk hash resolves to nothing). -/
def txC9 : Tx :=
  { hash := "H1", address := "A", value := -10, persistence := some false,
    signatureMessageFragment := "F", trunkTransaction := "T0", bundle := "B",
    currentIndex := 0, lastIndex := 1 }

/-- C9 failing input state: the debited address sits in `addresses` with positive
balance and unused index. -/
def stateC9 : State :=
  { addresses := [mkRec "A" 1 2 50], inputs := [], transfers := [], indexes := [],
    keyIndex := some 2 }

/-- State after the first application of the C9 diff: the record was promoted to
inputs and the transfer recorded. -/
def stateC9' : State :=
  { addresses := [], inputs := [mkRec "A" 1 2 50], transfers := [txC9], indexes := [],
    keyIndex := some 2 }

/-- C10 state: known address record with key index 0, cursor 0. -/
def stateC10 : State :=
  { addresses := [mkRec "A" 0 2 7], inputs := [], transfers := [], indexes := [],
    keyIndex := some 0 }

/-- C10 diff entry: confirmed debit against the index-0 address. -/
def txC10 : Tx :=
  { hash := "H", address := "A", value := -5, persistence := some true,
    signatureMessageFragment := "F", trunkTransaction := "T", bundle := "B",
    currentIndex := 0, lastIndex := 0 }

/-! Generic facts about the JavaScript-shaped list operations. -/

theorem findIndex_none {α : Type _} {p : α → Bool} {l : List α}
    (h : findIndex p l = none) : ∀ x ∈ l, p x = false := by
  induction l with
  | nil => intro x hx; exact absurd hx (List.not_mem_nil x)
  | cons a l ih =>
    intro x hx
    unfold findIndex at h
    by_cases hpa : p a = true
    · simp [hpa] at h
    · have hpa' : p a = false := by simpa using hpa
      simp [hpa', Option.map_eq_none'] at h
      rcases List.mem_cons.mp hx with rfl | hmem
      · exact hpa'
      · exact ih h x hmem

theorem findIndex_some {α : Type _} {p : α → Bool} {l : List α} {i : Nat}
    (h : findIndex p l = some i) :
    ∃ A x B, l = A ++ x :: B ∧ A.length = i ∧ p x = true ∧ ∀ y ∈ A, p y = false := by
  induction l generalizing i with
  | nil => simp [findIndex] at h
  | cons a l ih =>
    unfold findIndex at h
    by_cases hpa : p a = true
    · simp only [hpa, if_true, Option.some.injEq] at h
      exact ⟨[], a, l, by simp, by simp [h], hpa, by simp⟩
    · have hpa' : p a = false := by simpa using hpa
      simp [hpa', Option.map_eq_some'] at h
      obtain ⟨j, hj, hji⟩ := h
      obtain ⟨A, x, B, hdec, hlen, hpx, hA⟩ := ih hj
      refine ⟨a :: A, x, B, by simp [hdec], by simp [hlen, hji], hpx, ?_⟩
      intro y hy
      rcases List.mem_cons.mp hy with rfl | hmem
      · exact hpa'
      · exact hA y hmem

theorem findIndex_isSome_iff {α : Type _} {p : α → Bool} {l : List α} :
    (findIndex p l).isSome = true ↔ ∃ x ∈ l, p x = true := by
  induction l with
  | nil => simp [findIndex]
  | cons a l ih =>
    unfold findIndex
    by_cases hpa : p a = true
    · simp [hpa]
    · have hpa' : p a = false := by simpa using hpa
      simp [hpa', ih]

theorem getD_append_len {α : Type _} (A : List α) (x : α) (B : List α) (d : α) :
    (A ++ x :: B).getD A.length d = x := by
  rw [List.getD_append_right A (x :: B) d A.length (le_refl _)]
  simp

theorem set_append_len {α : Type _} (A : List α) (x y : α) (B : List α) :
    (A ++ x :: B).set A.length y = A ++ y :: B := by
  induction A with
  | nil => simp
  | cons a A ih => simp [ih]

theorem eraseIdx_append_len {α : Type _} (A : List α) (x : α) (B : List α) :
    (A ++ x :: B).eraseIdx A.length = A ++ B := by
  induction A with
  | nil => simp
  | cons a A ih => simp [ih]

theorem perm_getD_eraseIdx {α : Type _} (l : List α) (i : Nat) (d : α)
    (h : i < l.length) : l.Perm (l.getD i d :: l.eraseIdx i) := by
  induction l generalizing i with
  | nil => simp at h
  | cons a l ih =>
    cases i with
    | zero => simp
    | succ i =>
      have h' : i < l.length := by simpa using h
      have step := (ih i h').cons a
      refine step.trans ?_
      simpa using List.Perm.swap (l.getD i d) a (l.eraseIdx i)

theorem perm_set_eraseIdx {α : Type _} (l : List α) (i : Nat) (e : α)
    (h : i < l.length) : (l.set i e).Perm (e :: l.eraseIdx i) := by
  induction l generalizing i with
  | nil => simp at h
  | cons a l ih =>
    cases i with
    | zero => simp
    | succ i =>
      have h' : i < l.length := by simpa using h
      have step := (ih i h').cons a
      refine ?_
      simp only [List.set_cons_succ, List.eraseIdx_cons_succ]
      exact step.trans (List.Perm.swap e a (l.eraseIdx i))

theorem sortInsert_perm {α : Type _} (le : α → α → Bool) (e : α) (l : List α) :
    (sortInsert le e l).Perm (e :: l) := by
  induction l with
  | nil => simp [sortInsert]
  | cons x xs ih =>
    unfold sortInsert
    by_cases hc : le e x = true
    · simp [hc]
    · have hc' : le e x = false := by simpa using hc
      simp only [hc', if_false]
      exact (ih.cons x).trans (List.Perm.swap e x xs)

theorem jsSort_perm {α : Type _} (le : α → α → Bool) (l : List α) :
    (jsSort le l).Perm l := by
  induction l with
  | nil => simp [jsSort]
  | cons x xs ih =>
    unfold jsSort
    exact (sortInsert_perm le x (jsSort le xs)).trans (ih.cons x)

theorem sortInsert_pairwise {α : Type _} (le : α → α → Bool)
    (htot : ∀ a b, le a b = true ∨ le b a = true)
    (htrans : ∀ a b c, le a b = true → le b c = true → le a c = true)
    (e : α) (l : List α) (h : l.Pairwise fun a b => le a b = true) :
    (sortInsert le e l).Pairwise fun a b => le a b = true := by
  induction l with
  | nil => simp [sortInsert]
  | cons x xs ih =>
    rcases List.pairwise_cons.mp h with ⟨hx, hxs⟩
    unfold sortInsert
    by_cases hc : le e x = true
    · simp only [hc, if_true]
      refine List.pairwise_cons.mpr ⟨?_, h⟩
      intro b hb
      rcases List.mem_cons.mp hb with rfl | hmem
      · exact hc
      · exact htrans e x b hc (hx b hmem)
    · have hc' : le e x = false := by simpa using hc
      simp only [hc', if_false]
      refine List.pairwise_cons.mpr ⟨?_, ih hxs⟩
      intro b hb
      have hxe : le x e = true := (htot e x).resolve_left (by simp [hc'])
      have hbmem := (sortInsert_perm le e xs).mem_iff.mp hb
      rcases List.mem_cons.mp hbmem with rfl | hmem
      · exact hxe
      · exact hx b hmem

theorem jsSort_pairwise {α : Type _} (le : α → α → Bool)
    (htot : ∀ a b, le a b = true ∨ le b a = true)
    (htrans : ∀ a b c, le a b = true → le b c = true → le a c = true)
    (l : List α) : (jsSort le l).Pairwise fun a b => le a b = true := by
  induction l with
  | nil => simp [jsSort]
  | cons x xs ih =>
    unfold jsSort
    exact sortInsert_pairwise le htot htrans x (jsSort le xs) ih

theorem jsSort_head_min {α : Type _} (le : α → α → Bool)
    (htot : ∀ a b, le a b = true ∨ le b a = true)
    (htrans : ∀ a b c, le a b = true → le b c = true → le a c = true)
    {l : List α} {a : α} {rest : List α} (h : jsSort le l = a :: rest) :
    ∀ b ∈ l, le a b = true := by
  intro b hb
  have hbmem : b ∈ a :: rest := h ▸ ((jsSort_perm le l).mem_iff.mpr hb)
  rcases List.mem_cons.mp hbmem with rfl | hmem
  · exact (htot b b).elim id id
  · have hp := jsSort_pairwise le htot htrans l
    rw [h] at hp
    exact (List.pairwise_cons.mp hp).1 b hmem

theorem foldE_inv {β α ε : Type _} (P : β → Prop) (f : β → α → Except ε β)
    (hf : ∀ b a b', P b → f b a = .ok b' → P b') :
    ∀ (l : List α) (b b'), P b → foldE f b l = .ok b' → P b' := by
  intro l
  induction l with
  | nil =>
    intro b b' hP h
    simp only [foldE, Except.ok.injEq] at h
    exact h ▸ hP
  | cons a l ih =>
    intro b b' hP h
    unfold foldE at h
    cases hfa : f b a with
    | error e => rw [hfa] at h; simp at h
    | ok b₁ => rw [hfa] at h; exact ih b₁ b' (hf b a b₁ hP hfa) h

theorem foldl_mem_inv {β α : Type _} {P : β → Prop} {f : β → α → β} :
    ∀ {l : List α}, (∀ b a, a ∈ l → P b → P (f b a)) → ∀ {b}, P b → P (l.foldl f b) := by
  intro l
  induction l with
  | nil => intro _ b hb; simpa using hb
  | cons x l ih =>
    intro hstep b hb
    simp only [List.foldl_cons]
    exact ih (fun b a ha => hstep b a (List.mem_cons_of_mem _ ha))
      (hstep b x (List.mem_cons_self x l) hb)

/-! Registry lemmas: `isUsedKey` and `markKeyAsUsed`. -/

theorem sep_symm {a b : Entry} (h : sep a b) : sep b a := Or.symm h

theorem getBound0_point (n : Int) : getBound0 (.point n) = n := rfl

theorem getBound0_range (a b : Int) : getBound0 (.range a b) = a := rfl

theorem getBound1_point (n : Int) : getBound1 (.point n) = n := rfl

theorem getBound1_range (a b : Int) : getBound1 (.range a b) = b := rfl

theorem isUsedKey_iff {l : List Entry} {k : Int} :
    isUsedKey l k = true ↔ ∃ e ∈ l, covers e k := by
  unfold isUsedKey
  rw [findIndex_isSome_iff]
  apply exists_congr
  intro e
  apply and_congr_right
  intro _
  cases e with
  | point n =>
    simp only [covers, getBound0_point, getBound1_point, beq_iff_eq]
    omega
  | range a b =>
    simp only [covers, getBound0_range, getBound1_range, Bool.and_eq_true,
      decide_eq_true_eq, ge_iff_le]

theorem not_covers_of_not_used {l : List Entry} {k : Int}
    (h : isUsedKey l k = false) : ∀ e ∈ l, ¬covers e k := by
  intro e he hc
  have ht : isUsedKey l k = true := isUsedKey_iff.mpr ⟨e, he, hc⟩
  rw [h] at ht
  exact Bool.false_ne_true ht

theorem mark_both_assemble {l rest : List Entry} {k : Int} {eI eJ : Entry}
    (hwf : ∀ e ∈ l, wfEntry e) (hlperm : l.Perm ([eI, eJ] ++ rest))
    (hbI : getBound0 eI = k + 1) (hbJ : getBound1 eJ = k - 1) :
    wfEntry (.range (getBound0 eJ) (getBound1 eI)) ∧
    (∀ m, covers (.range (getBound0 eJ) (getBound1 eI)) m ↔
      (∃ e ∈ [eI, eJ], covers e m) ∨ m = k) ∧
    (l.Pairwise sep → ∀ r ∈ rest, sep (.range (getBound0 eJ) (getBound1 eI)) r) := by
  have heImem : eI ∈ l := hlperm.mem_iff.mpr (by simp)
  have heJmem : eJ ∈ l := hlperm.mem_iff.mpr (by simp)
  have hwfI := hwf eI heImem
  have hwfJ := hwf eJ heJmem
  unfold wfEntry at hwfI hwfJ
  refine ⟨?_, ?_, ?_⟩
  · unfold wfEntry
    simp only [getBound0_range, getBound1_range]
    omega
  · intro m
    simp only [covers, getBound0_range, getBound1_range, List.mem_cons,
      List.not_mem_nil, or_false]
    constructor
    · rintro ⟨h1, h2⟩
      by_cases hm : m = k
      · exact Or.inr hm
      · refine Or.inl ?_
        by_cases hcase : m ≤ getBound1 eJ
        · exact ⟨eJ, Or.inr rfl, by omega⟩
        · exact ⟨eI, Or.inl rfl, by omega⟩
    · rintro (⟨e, he, hce⟩ | rfl)
      · rcases he with rfl | rfl
        · omega
        · omega
      · omega
  · intro hps r hr
    have hsep := hps.perm hlperm (fun hxy => Or.symm hxy)
    rcases List.pairwise_cons.mp hsep with ⟨hI, hsep2⟩
    rcases List.pairwise_cons.mp hsep2 with ⟨hJ, _⟩
    have hIr := hI r (List.mem_cons_of_mem eJ hr)
    have hJr := hJ r hr
    have hrl : r ∈ l := hlperm.mem_iff.mpr (by simp [hr])
    have hwfr := hwf r hrl
    unfold wfEntry at hwfr
    unfold sep at hIr hJr ⊢
    simp only [getBound0_range, getBound1_range]
    rcases hIr with h1 | h1 <;> rcases hJr with h2 | h2 <;> omega

theorem mark_extendJ_assemble {l rest : List Entry} {k : Int} {eJ : Entry}
    (hwf : ∀ e ∈ l, wfEntry e) (hlperm : l.Perm (eJ :: rest))
    (hbJ : getBound1 eJ = k - 1)
    (hnoI : ∀ e ∈ l, (getBound0 e == k + 1) = false) :
    wfEntry (.range (getBound0 eJ) k) ∧
    (∀ m, covers (.range (getBound0 eJ) k) m ↔ (∃ e ∈ [eJ], covers e m) ∨ m = k) ∧
    (l.Pairwise sep → ∀ r ∈ rest, sep (.range (getBound0 eJ) k) r) := by
  have heJmem : eJ ∈ l := hlperm.mem_iff.mpr (by simp)
  have hwfJ := hwf eJ heJmem
  unfold wfEntry at hwfJ
  refine ⟨?_, ?_, ?_⟩
  · unfold wfEntry
    simp only [getBound0_range, getBound1_range]
    omega
  · intro m
    simp only [covers, getBound0_range, getBound1_range, List.mem_cons,
      List.not_mem_nil, or_false, exists_eq_left]
    omega
  · intro hps r hr
    have hsep := hps.perm hlperm (fun hxy => Or.symm hxy)
    rcases List.pairwise_cons.mp hsep with ⟨hJ, _⟩
    have hJr := hJ r hr
    have hrl : r ∈ l := hlperm.mem_iff.mpr (by simp [hr])
    have hwfr := hwf r hrl
    have hnoIr := hnoI r hrl
    rw [beq_eq_false_iff_ne] at hnoIr
    unfold wfEntry at hwfr
    unfold sep at hJr ⊢
    simp only [getBound0_range, getBound1_range]
    rcases hJr with h1 | h1 <;> omega

theorem mark_extendI_assemble {l rest : List Entry} {k : Int} {eI : Entry}
    (hwf : ∀ e ∈ l, wfEntry e) (hlperm : l.Perm (eI :: rest))
    (hbI : getBound0 eI = k + 1)
    (hnoJ : ∀ e ∈ l, (getBound1 e == k - 1) = false) :
    wfEntry (.range k (getBound1 eI)) ∧
    (∀ m, covers (.range k (getBound1 eI)) m ↔ (∃ e ∈ [eI], covers e m) ∨ m = k) ∧
    (l.Pairwise sep → ∀ r ∈ rest, sep (.range k (getBound1 eI)) r) := by
  have heImem : eI ∈ l := hlperm.mem_iff.mpr (by simp)
  have hwfI := hwf eI heImem
  unfold wfEntry at hwfI
  refine ⟨?_, ?_, ?_⟩
  · unfold wfEntry
    simp only [getBound0_range, getBound1_range]
    omega
  · intro m
    simp only [covers, getBound0_range, getBound1_range, List.mem_cons,
      List.not_mem_nil, or_false, exists_eq_left]
    omega
  · intro hps r hr
    have hsep := hps.perm hlperm (fun hxy => Or.symm hxy)
    rcases List.pairwise_cons.mp hsep with ⟨hI, _⟩
    have hIr := hI r hr
    have hrl : r ∈ l := hlperm.mem_iff.mpr (by simp [hr])
    have hwfr := hwf r hrl
    have hnoJr := hnoJ r hrl
    rw [beq_eq_false_iff_ne] at hnoJr
    unfold wfEntry at hwfr
    unfold sep at hIr ⊢
    simp only [getBound0_range, getBound1_range]
    rcases hIr with h1 | h1 <;> omega

theorem mark_insert_assemble {l : List Entry} {k : Int}
    (hwf : ∀ e ∈ l, wfEntry e) (hused : isUsedKey l k = false)
    (hnoI : ∀ e ∈ l, (getBound0 e == k + 1) = false)
    (hnoJ : ∀ e ∈ l, (getBound1 e == k - 1) = false) :
    wfEntry (.point k) ∧
    (∀ m, covers (.point k) m ↔ (∃ e ∈ ([] : List Entry), covers e m) ∨ m = k) ∧
    (l.Pairwise sep → ∀ r ∈ l, sep (.point k) r) := by
  refine ⟨?_, ?_, ?_⟩
  · unfold wfEntry
    simp [getBound0_point, getBound1_point]
  · intro m
    simp only [covers, getBound0_point, getBound1_point, List.not_mem_nil, false_and,
      exists_const, exists_false, false_or]
    omega
  · intro _ r hr
    have hwfr := hwf r hr
    have hnc := not_covers_of_not_used hused r hr
    have hnoIr := hnoI r hr
    have hnoJr := hnoJ r hr
    rw [beq_eq_false_iff_ne] at hnoIr hnoJr
    unfold wfEntry at hwfr
    unfold covers at hnc
    unfold sep
    simp only [getBound0_point, getBound1_point]
    omega

theorem markKeyAsUsed_char {l : List Entry} {k : Int}
    (hwf : ∀ e ∈ l, wfEntry e) (hused : isUsedKey l k = false) :
    ∃ enew removed rest,
      (markKeyAsUsed l k).Perm (enew :: rest) ∧
      l.Perm (removed ++ rest) ∧
      wfEntry enew ∧
      (∀ m, covers enew m ↔ (∃ e ∈ removed, covers e m) ∨ m = k) ∧
      (l.Pairwise sep → ∀ r ∈ rest, sep enew r) := by
  have hcond : ¬(isUsedKey l k = true) := by simp [hused]
  unfold markKeyAsUsed
  rw [if_neg hcond]
  split
  · rename_i i j hi hj
    obtain ⟨A, eJ, B, hlj, hlenA, hqJ, _⟩ := findIndex_some hj
    obtain ⟨A', eI, B', hli, hlenA', hpI, _⟩ := findIndex_some hi
    have hbJ : getBound1 eJ = k - 1 := by simpa using hqJ
    have hbI : getBound0 eI = k + 1 := by simpa using hpI
    have hglj : l.getD j default = eJ := by
      rw [hlj, ← hlenA]
      exact getD_append_len A eJ B default
    have hgli : l.getD i default = eI := by
      rw [hli, ← hlenA']
      exact getD_append_len A' eI B' default
    have hwfJ : wfEntry eJ := hwf eJ (by
      rw [hlj]; exact List.mem_append_right A (List.mem_cons_self eJ B))
    have hij : i ≠ j := by
      intro heq
      have heIJ : eI = eJ := by rw [← hgli, ← hglj, heq]
      unfold wfEntry at hwfJ
      rw [heIJ] at hbI
      omega
    have hilen : i < l.length := by
      rw [hli, ← hlenA']
      simp only [List.length_append, List.length_cons]
      omega
    rcases Nat.lt_or_ge i j with hlt | hge
    · have hiA : i < A.length := by omega
      have hAI : A.getD i default = eI := by
        rw [← List.getD_append A (eJ :: B) default i hiA, ← hlj]
        exact hgli
      have hres : (l.set i
            (Entry.range (getBound0 (l.getD j default)) (getBound1 (l.getD i default)))).eraseIdx j
          = A.set i (Entry.range (getBound0 eJ) (getBound1 eI)) ++ B := by
        rw [hglj, hgli, hlj, List.set_append, if_pos hiA]
        have hlen2 : (A.set i (Entry.range (getBound0 eJ) (getBound1 eI))).length = j := by
          simp [hlenA]
        rw [← hlen2]
        exact eraseIdx_append_len _ eJ B
      have hApermI : A.Perm (eI :: A.eraseIdx i) := by
        have hh := perm_getD_eraseIdx A i default hiA
        rwa [hAI] at hh
      have hlperm : l.Perm ([eI, eJ] ++ (A.eraseIdx i ++ B)) := by
        rw [hlj]
        exact List.perm_middle.trans
          ((List.Perm.cons eJ (hApermI.append_right B)).trans (List.Perm.swap eI eJ _))
      obtain ⟨hwfn, hcov, hsepn⟩ := mark_both_assemble hwf hlperm hbI hbJ
      refine ⟨_, [eI, eJ], A.eraseIdx i ++ B, ?_, hlperm, hwfn, hcov, hsepn⟩
      rw [hres]
      exact (perm_set_eraseIdx A i _ hiA).append_right B
    · have hjlt : j < i := by omega
      have hblen : i - j - 1 < B.length := by
        have h2 : l.length = A.length + B.length + 1 := by
          rw [hlj]
          simp only [List.length_append, List.length_cons]
          omega
        omega
      have hBI : B.getD (i - j - 1) default = eI := by
        have h1 : l.getD i default = (eJ :: B).getD (i - A.length) default := by
          rw [hlj]
          exact List.getD_append_right A (eJ :: B) default i (by omega)
        have h2 : i - A.length = (i - j - 1) + 1 := by omega
        rw [h2, List.getD_cons_succ] at h1
        rw [← h1]
        exact hgli
      have hres : (l.set i
            (Entry.range (getBound0 (l.getD j default)) (getBound1 (l.getD i default)))).eraseIdx j
          = A ++ B.set (i - j - 1) (Entry.range (getBound0 eJ) (getBound1 eI)) := by
        rw [hglj, hgli, hlj, List.set_append, if_neg (by omega)]
        have h2 : i - A.length = (i - j - 1) + 1 := by omega
        rw [h2, List.set_cons_succ, ← hlenA]
        exact eraseIdx_append_len A eJ _
      have hBpermI : B.Perm (eI :: B.eraseIdx (i - j - 1)) := by
        have hh := perm_getD_eraseIdx B (i - j - 1) default hblen
        rwa [hBI] at hh
      have hlperm : l.Perm ([eI, eJ] ++ (A ++ B.eraseIdx (i - j - 1))) := by
        rw [hlj]
        refine List.perm_middle.trans ?_
        refine (List.Perm.cons eJ ?_).trans (List.Perm.swap eI eJ _)
        exact (List.Perm.append_left A hBpermI).trans List.perm_middle
      obtain ⟨hwfn, hcov, hsepn⟩ := mark_both_assemble hwf hlperm hbI hbJ
      refine ⟨_, [eI, eJ], A ++ B.eraseIdx (i - j - 1), ?_, hlperm, hwfn, hcov, hsepn⟩
      rw [hres]
      exact (List.Perm.append_left A (perm_set_eraseIdx B _ _ hblen)).trans
        List.perm_middle
  · rename_i j hi hj
    obtain ⟨A, eJ, B, hlj, hlenA, hqJ, _⟩ := findIndex_some hj
    have hbJ : getBound1 eJ = k - 1 := by simpa using hqJ
    have hglj : l.getD j default = eJ := by
      rw [hlj, ← hlenA]
      exact getD_append_len A eJ B default
    have hnoI : ∀ e ∈ l, (getBound0 e == k + 1) = false := findIndex_none hi
    have hlperm : l.Perm (eJ :: (A ++ B)) := by
      rw [hlj]
      exact List.perm_middle
    obtain ⟨hwfn, hcov, hsepn⟩ := mark_extendJ_assemble hwf hlperm hbJ hnoI
    refine ⟨_, [eJ], A ++ B, ?_, hlperm, hwfn, hcov, hsepn⟩
    rw [hglj, hlj, ← hlenA, set_append_len]
    exact List.perm_middle
  · rename_i i hi hj
    obtain ⟨A, eI, B, hli, hlenA, hpI, _⟩ := findIndex_some hi
    have hbI : getBound0 eI = k + 1 := by simpa using hpI
    have hgli : l.getD i default = eI := by
      rw [hli, ← hlenA]
      exact getD_append_len A eI B default
    have hnoJ : ∀ e ∈ l, (getBound1 e == k - 1) = false := findIndex_none hj
    have hlperm : l.Perm (eI :: (A ++ B)) := by
      rw [hli]
      exact List.perm_middle
    obtain ⟨hwfn, hcov, hsepn⟩ := mark_extendI_assemble hwf hlperm hbI hnoJ
    refine ⟨_, [eI], A ++ B, ?_, hlperm, hwfn, hcov, hsepn⟩
    rw [hgli, hli, ← hlenA, set_append_len]
    exact List.perm_middle
  · rename_i hi hj
    have hnoI := findIndex_none hi
    have hnoJ := findIndex_none hj
    obtain ⟨hwfn, hcov, hsepn⟩ := mark_insert_assemble hwf hused hnoI hnoJ
    refine ⟨Entry.point k, [], l, ?_, by simp, hwfn, hcov, hsepn⟩
    exact (jsSort_perm entryLe (l ++ [Entry.point k])).trans
      (List.perm_append_singleton _ l)

theorem markKeyAsUsed_noop {l : List Entry} {k : Int} (h : isUsedKey l k = true) :
    markKeyAsUsed l k = l := by
  unfold markKeyAsUsed
  rw [if_pos h]

theorem isUsedKey_markKeyAsUsed {l : List Entry} {k : Int}
    (hwf : ∀ e ∈ l, wfEntry e) (m : Int) :
    isUsedKey (markKeyAsUsed l k) m = true ↔ isUsedKey l m = true ∨ m = k := by
  by_cases hused : isUsedKey l k = true
  · rw [markKeyAsUsed_noop hused]
    constructor
    · exact Or.inl
    · rintro (h | rfl)
      · exact h
      · exact hused
  · have husedF : isUsedKey l k = false := by simpa using hused
    obtain ⟨enew, removed, rest, hres, hl, _, hcov, _⟩ := markKeyAsUsed_char hwf husedF
    rw [isUsedKey_iff, isUsedKey_iff]
    constructor
    · rintro ⟨e, he, hce⟩
      rcases List.mem_cons.mp (hres.mem_iff.mp he) with rfl | hmem
      · rcases (hcov m).mp hce with ⟨e', he', hce'⟩ | rfl
        · exact Or.inl ⟨e', hl.mem_iff.mpr (List.mem_append_left rest he'), hce'⟩
        · exact Or.inr rfl
      · exact Or.inl ⟨e, hl.mem_iff.mpr (List.mem_append_right removed hmem), hce⟩
    · rintro (⟨e, he, hce⟩ | rfl)
      · rcases List.mem_append.mp (hl.mem_iff.mp he) with hmem | hmem
        · exact ⟨enew, hres.mem_iff.mpr (List.mem_cons_self enew rest),
            (hcov m).mpr (Or.inl ⟨e, hmem, hce⟩)⟩
        · exact ⟨e, hres.mem_iff.mpr (List.mem_cons_of_mem enew hmem), hce⟩
      · exact ⟨enew, hres.mem_iff.mpr (List.mem_cons_self enew rest),
          (hcov m).mpr (Or.inr rfl)⟩

theorem markKeyAsUsed_inv {l : List Entry} {k : Int}
    (hwf : ∀ e ∈ l, wfEntry e) (hsep : l.Pairwise sep) :
    (∀ e ∈ markKeyAsUsed l k, wfEntry e) ∧ (markKeyAsUsed l k).Pairwise sep := by
  by_cases hused : isUsedKey l k = true
  · rw [markKeyAsUsed_noop hused]
    exact ⟨hwf, hsep⟩
  · have husedF : isUsedKey l k = false := by simpa using hused
    obtain ⟨enew, removed, rest, hres, hl, hwfn, _, hsepn⟩ := markKeyAsUsed_char hwf husedF
    have hrestwf : ∀ e ∈ rest, wfEntry e := fun e he =>
      hwf e (hl.mem_iff.mpr (List.mem_append_right removed he))
    have hrestsep : rest.Pairwise sep := by
      have hp := hsep.perm hl (fun hxy => Or.symm hxy)
      exact (List.pairwise_append.mp hp).2.1
    constructor
    · intro e he
      rcases List.mem_cons.mp (hres.mem_iff.mp he) with rfl | hmem
      · exact hwfn
      · exact hrestwf e hmem
    · exact (List.pairwise_cons.mpr ⟨hsepn hsep, hrestsep⟩).perm hres.symm
        (fun hxy => Or.symm hxy)

theorem isUsedKey_markKeyAsUsed_false {l : List Entry} {k m : Int}
    (hwf : ∀ e ∈ l, wfEntry e) (hm : isUsedKey l m = false) (hne : m ≠ k) :
    isUsedKey (markKeyAsUsed l k) m = false := by
  rw [Bool.eq_false_iff]
  intro hcontra
  rcases (isUsedKey_markKeyAsUsed hwf m).mp hcontra with hold | rfl
  · rw [hm] at hold
    exact Bool.false_ne_true hold
  · exact hne rfl

theorem foldl_mark_inv (t : List Int) (l : List Entry)
    (hwf : ∀ e ∈ l, wfEntry e) (hsep : l.Pairwise sep) :
    (∀ e ∈ t.foldl markKeyAsUsed l, wfEntry e) ∧
    (t.foldl markKeyAsUsed l).Pairwise sep ∧
    (∀ k, isUsedKey (t.foldl markKeyAsUsed l) k = true ↔ isUsedKey l k = true ∨ k ∈ t) := by
  induction t generalizing l with
  | nil =>
    refine ⟨hwf, hsep, ?_⟩
    intro k
    simp
  | cons m t ih =>
    have h1 := markKeyAsUsed_inv (k := m) hwf hsep
    obtain ⟨ihwf, ihsep, ihuse⟩ := ih (markKeyAsUsed l m) h1.1 h1.2
    refine ⟨ihwf, ihsep, ?_⟩
    intro k
    simp only [List.foldl_cons] at *
    rw [ihuse k, isUsedKey_markKeyAsUsed hwf k, List.mem_cons]
    tauto

/-- C2 (counterexample): the claim asserts that after every `markUsed` trace the
registry is the minimal **sorted** disjoint-interval representation. Marking 10 and
then 2 leaves the registry `[10, 2]` — JavaScript's default sort compares the
elements as strings and `"10" < "2"` — which is not in ascending numeric order. -/
theorem markUsed_registry_sorted_counterexample :
    applyTrace [10, 2] = [Entry.point 10, Entry.point 2] ∧
    isSortedRegistry (applyTrace [10, 2]) = false := by
  constructor
  · rfl
  · rfl

/-- C2 (amended): for every finite sequence of `markUsed` calls starting from the
empty registry, after each call `isUsed` holds exactly for the marked indices, the
entries are well-formed and no two stored intervals touch or overlap (the registry is
a minimal disjoint-interval representation of the union of the marked indices), and
`markUsed` on an already-used index is a no-op; the collection is, however, not kept
numerically sorted. The trace 5, 6, 4, 8, 7 yields the interval views
[[5,6]], [[4,6]], [[4,6],[8,8]], [[4,8]]. -/
theorem markUsed_registry_amended :
    (∀ (t : List Int),
      (∀ k, isUsedKey (applyTrace t) k = true ↔ k ∈ t) ∧
      (∀ e ∈ applyTrace t, wfEntry e) ∧
      (applyTrace t).Pairwise sep) ∧
    (∀ (indexes : List Entry) (index : Int),
      isUsedKey indexes index = true → markKeyAsUsed indexes index = indexes) ∧
    (toIntervals (applyTrace [5, 6]) = [(5, 6)] ∧
     toIntervals (applyTrace [5, 6, 4]) = [(4, 6)] ∧
     toIntervals (applyTrace [5, 6, 4, 8]) = [(4, 6), (8, 8)] ∧
     toIntervals (applyTrace [5, 6, 4, 8, 7]) = [(4, 8)]) := by
  refine ⟨?_, ?_, ?_⟩
  · intro t
    unfold applyTrace
    obtain ⟨hwf, hsep, huse⟩ := foldl_mark_inv t [] (by simp) (by simp)
    refine ⟨?_, hwf, hsep⟩
    intro k
    rw [huse k]
    simp [isUsedKey, findIndex]
  · exact fun _ _ h => markKeyAsUsed_noop h
  · exact ⟨rfl, rfl, rfl, rfl⟩

/-- C2 (witness): the no-op clause of the amended claim, instantiated at the
singleton registry. -/
theorem markUsed_registry_amended_witness :
    markKeyAsUsed [Entry.point 5] 5 = [Entry.point 5] :=
  markUsed_registry_amended.2.1 [Entry.point 5] 5 (by decide)

/-! Preservation of well-formedness by the public operations. -/

theorem addresses_map_addr_nodup {s : State} (h : WellFormed s) :
    (s.addresses.map AddrRec.address).Nodup := by
  have hnd := h.nodupAddr
  rw [recsOf, List.map_append] at hnd
  exact (List.nodup_append.mp hnd).1

theorem inputs_map_addr_nodup {s : State} (h : WellFormed s) :
    (s.inputs.map AddrRec.address).Nodup := by
  have hnd := h.nodupAddr
  rw [recsOf, List.map_append] at hnd
  exact (List.nodup_append.mp hnd).2.1

theorem addr_ne_of_mem_both {s : State} (h : WellFormed s) {a b : AddrRec}
    (ha : a ∈ s.addresses) (hb : b ∈ s.inputs) : a.address ≠ b.address := by
  have hnd := h.nodupAddr
  rw [recsOf, List.map_append] at hnd
  have hd := List.disjoint_of_nodup_append hnd
  intro heq
  exact hd (List.mem_map_of_mem AddrRec.address ha)
    (heq ▸ List.mem_map_of_mem AddrRec.address hb)

theorem idx_ne_of_mem_both {s : State} (h : WellFormed s) {a b : AddrRec}
    (ha : a ∈ s.addresses) (hb : b ∈ s.inputs) : a.index ≠ b.index := by
  have hnd := h.nodupIdx
  rw [recsOf, List.map_append] at hnd
  have hd := List.disjoint_of_nodup_append hnd
  intro heq
  exact hd (List.mem_map_of_mem AddrRec.index ha)
    (heq ▸ List.mem_map_of_mem AddrRec.index hb)

theorem wellFormed_of_recs_perm {s s' : State}
    (hperm : (recsOf s').Perm (recsOf s))
    (hidx : s'.indexes = s.indexes) (hwf : WellFormed s)
    (hfresh : ∀ r ∈ s'.inputs, isUsedKey s'.indexes r.index = false) :
    WellFormed s' := by
  refine ⟨?_, ?_, hfresh, ?_, ?_⟩
  · exact hwf.nodupAddr.perm (hperm.map AddrRec.address).symm
  · exact hwf.nodupIdx.perm (hperm.map AddrRec.index).symm
  · rw [hidx]; exact hwf.regWf
  · rw [hidx]; exact hwf.regSep

theorem processSpendingStep_wf {crypto : Crypto} {diffCopy : List Tx}
    {acc acc' : State × List String} {tx : Tx}
    (hwf : WellFormed acc.1)
    (h : processSpendingStep crypto diffCopy acc tx = .ok acc') :
    WellFormed acc'.1 := by
  unfold processSpendingStep at h
  split at h
  · exact absurd h (by simp)
  · rename_i rec0 hfind
    split at h
    · split at h
      · rename_i inputIndex hinp
        exfalso
        obtain ⟨A, x, B, hdec, _, hpx, _⟩ := findIndex_some hinp
        have hrec0mem : rec0 ∈ acc.1.addresses := List.mem_of_find?_eq_some hfind
        have hrec0addr : rec0.address = tx.address := by simpa using List.find?_some hfind
        have hxmem : x ∈ acc.1.inputs := by
          rw [hdec]; exact List.mem_append_right A (List.mem_cons_self x B)
        have hxaddr : x.address = tx.address := by simpa using hpx
        exact addr_ne_of_mem_both hwf hrec0mem hxmem (by rw [hrec0addr, hxaddr])
      · rename_i hinp
        split at h
        · simp only [Except.ok.injEq] at h
          subst h
          refine ⟨hwf.nodupAddr, hwf.nodupIdx, ?_,
            (markKeyAsUsed_inv hwf.regWf hwf.regSep).1,
            (markKeyAsUsed_inv hwf.regWf hwf.regSep).2⟩
          intro r hr
          have hfresh := hwf.inputsFresh r hr
          have hne : r.index ≠ rec0.index := fun heq =>
            idx_ne_of_mem_both hwf (List.mem_of_find?_eq_some hfind) hr heq.symm
          exact isUsedKey_markKeyAsUsed_false hwf.regWf hfresh hne
        · exact absurd h (by simp)
    · simp only [Except.ok.injEq] at h
      subst h
      exact hwf

theorem foldE_spending_wf {crypto : Crypto} {diffCopy : List Tx} {l : List Tx}
    {s : State} {seen : List String} {res : State × List String}
    (hwf : WellFormed s)
    (h : foldE (processSpendingStep crypto diffCopy) (s, seen) l = .ok res) :
    WellFormed res.1 :=
  foldE_inv (fun p => WellFormed p.1) (processSpendingStep crypto diffCopy)
    (fun _ _ _ hb hf => processSpendingStep_wf hb hf) l (s, seen) res hwf h

theorem promoteStep_wf {s0 acc : State} {rec0 : AddrRec}
    (hs0 : (s0.addresses.map AddrRec.address).Nodup)
    (hsub : acc.addresses.Sublist s0.addresses)
    (hidx : acc.indexes = s0.indexes)
    (hwf : WellFormed acc)
    (hrec0 : rec0 ∈ s0.addresses)
    (hfresh : isUsedKey s0.indexes rec0.index = false) :
    WellFormed (promoteStep acc rec0) ∧
    (promoteStep acc rec0).addresses.Sublist s0.addresses ∧
    (promoteStep acc rec0).indexes = s0.indexes := by
  unfold promoteStep
  split
  · rename_i i hfi
    obtain ⟨A, x, B, hdec, hlenA, hpx, _⟩ := findIndex_some hfi
    have hgd : acc.addresses.getD i default = x := by
      rw [hdec, ← hlenA]
      exact getD_append_len A x B default
    have hxaddr : x.address = rec0.address := by simpa using hpx
    have hxmem : x ∈ acc.addresses := by
      rw [hdec]; exact List.mem_append_right A (List.mem_cons_self x B)
    have hxs0 : x ∈ s0.addresses := hsub.subset hxmem
    have hx_eq : x = rec0 := List.inj_on_of_nodup_map hs0 hxs0 hrec0 (by rw [hxaddr])
    have hilen : i < acc.addresses.length := by
      rw [hdec, ← hlenA]
      simp only [List.length_append, List.length_cons]
      omega
    have hAperm : acc.addresses.Perm (x :: acc.addresses.eraseIdx i) := by
      have hh := perm_getD_eraseIdx acc.addresses i default hilen
      rwa [hgd] at hh
    have hperm : (acc.addresses.eraseIdx i ++
        (acc.inputs ++ [acc.addresses.getD i default])).Perm
        (acc.addresses ++ acc.inputs) := by
      rw [hgd]
      refine (List.Perm.append_left _ (List.perm_append_singleton x acc.inputs)).trans ?_
      refine List.perm_middle.trans ?_
      exact (hAperm.append_right acc.inputs).symm
    refine ⟨?_, ?_, hidx⟩
    · refine wellFormed_of_recs_perm hperm rfl hwf ?_
      intro r hr
      rcases List.mem_append.mp hr with hmem | hmem
      · exact hwf.inputsFresh r hmem
      · have hr_eq : r = acc.addresses.getD i default := by simpa using hmem
        rw [hr_eq, hgd, hx_eq, hidx]
        exact hfresh
    · exact (List.eraseIdx_sublist acc.addresses i).trans hsub
  · exact ⟨hwf, hsub, hidx⟩

theorem promoteInputs_wf {s : State} (hwf : WellFormed s) :
    WellFormed (promoteInputs s) := by
  unfold promoteInputs
  have hfold := foldl_mem_inv
    (P := fun acc : State => WellFormed acc ∧ acc.addresses.Sublist s.addresses ∧
      acc.indexes = s.indexes)
    (f := promoteStep)
    (l := s.addresses.filter fun a => decide (a.balance > 0) && !isUsedKey s.indexes a.index)
    (fun acc rec0 hmem hacc => by
      have hmem' := List.mem_filter.mp hmem
      have hfresh : isUsedKey s.indexes rec0.index = false := by
        have hb := hmem'.2
        simp only [Bool.and_eq_true, Bool.not_eq_true'] at hb
        exact hb.2
      exact promoteStep_wf (addresses_map_addr_nodup hwf) hacc.2.1 hacc.2.2 hacc.1
        hmem'.1 hfresh)
    ⟨hwf, List.Sublist.refl _, rfl⟩
  exact hfold.1

theorem applyTransfersDiff_wf {crypto : Crypto} {s s' : State} {diff : List Tx}
    (hwf : WellFormed s) (h : applyTransfersDiff crypto s diff = .ok s') :
    WellFormed s' := by
  unfold applyTransfersDiff at h
  cases hfe : foldE
      (processSpendingStep crypto (diff.filter fun tx => decide (tx.value ≤ 0)))
      (s, ([] : List String)) (diff.filter fun tx => decide (tx.value < 0)) with
  | error e =>
    rw [hfe] at h
    exact absurd h (by simp)
  | ok res =>
    rw [hfe] at h
    simp only [Except.ok.injEq] at h
    subst h
    have h2 : WellFormed (promoteInputs res.1) :=
      promoteInputs_wf (foldE_spending_wf hwf hfe)
    exact ⟨h2.nodupAddr, h2.nodupIdx, h2.inputsFresh, h2.regWf, h2.regSep⟩

theorem selectLoop_perm (value : Int) :
    ∀ (fuel : Nat) (pool : List AddrRec) (total : Int) (collected : List AddrRec),
    ∃ rest, ((selectLoop value fuel pool total collected).1 ++ rest).Perm
      (collected ++ pool) := by
  intro fuel
  induction fuel with
  | zero =>
    intro pool total collected
    exact ⟨pool, by simp [selectLoop]⟩
  | succ fuel ih =>
    intro pool total collected
    unfold selectLoop
    by_cases hlt : total < value
    · rw [if_pos hlt]
      cases hsort : jsSort (fun a b =>
          decide (optimalKey (value - total) a ≤ optimalKey (value - total) b)) pool with
      | nil =>
        have hpool : pool = [] := by
          have hp := jsSort_perm (fun a b =>
            decide (optimalKey (value - total) a ≤ optimalKey (value - total) b)) pool
          rw [hsort] at hp
          exact (hp.symm).eq_nil
        exact ⟨[], by simp [hpool]⟩
      | cons input rest' =>
        obtain ⟨rest, hrest⟩ := ih rest' (total + input.balance) (collected ++ [input])
        refine ⟨rest, hrest.trans ?_⟩
        rw [List.append_assoc]
        refine List.Perm.append_left collected ?_
        have hp := jsSort_perm (fun a b =>
          decide (optimalKey (value - total) a ≤ optimalKey (value - total) b)) pool
        rw [hsort] at hp
        exact hp
    · rw [if_neg hlt]
      exact ⟨pool, by simp⟩

theorem spendInputStep_char {st : State} {c : AddrRec} (hwf : WellFormed st)
    (hc : c ∈ st.inputs) :
    WellFormed (spendInputStep st c) ∧
    st.inputs.Perm (c :: (spendInputStep st c).inputs) := by
  have hnd := inputs_map_addr_nodup hwf
  obtain ⟨i, hfi⟩ : ∃ i,
      findIndex (fun stateInput => stateInput.address == c.address) st.inputs = some i := by
    cases hfi : findIndex (fun stateInput => stateInput.address == c.address) st.inputs with
    | none => exact absurd (findIndex_none hfi c hc) (by simp)
    | some i => exact ⟨i, rfl⟩
  obtain ⟨A, x, B, hdec, hlenA, hpx, _⟩ := findIndex_some hfi
  have hxmem : x ∈ st.inputs := by
    rw [hdec]; exact List.mem_append_right A (List.mem_cons_self x B)
  have hx_eq : x = c := List.inj_on_of_nodup_map hnd hxmem hc (by simpa using hpx)
  have heq : spendInputStep st c =
      { st with
          inputs := st.inputs.eraseIdx i
          addresses := st.addresses ++ [c]
          indexes := markKeyAsUsed st.indexes c.index } := by
    unfold spendInputStep
    rw [hfi]
  have herase : st.inputs.eraseIdx i = A ++ B := by
    rw [hdec, ← hlenA]
    exact eraseIdx_append_len A x B
  have hip : st.inputs.Perm (c :: st.inputs.eraseIdx i) := by
    rw [herase, hdec, ← hx_eq]
    exact List.perm_middle
  rw [heq]
  constructor
  · have hrecs : (recsOf
        { st with
            inputs := st.inputs.eraseIdx i
            addresses := st.addresses ++ [c]
            indexes := markKeyAsUsed st.indexes c.index }).Perm (recsOf st) := by
      show ((st.addresses ++ [c]) ++ st.inputs.eraseIdx i).Perm (st.addresses ++ st.inputs)
      rw [List.append_assoc]
      exact List.Perm.append_left st.addresses
        (show (c :: st.inputs.eraseIdx i).Perm st.inputs from hip.symm)
    have hinpnodup : st.inputs.Nodup := List.Nodup.of_map AddrRec.address hnd
    have hnotmem : c ∉ st.inputs.eraseIdx i := by
      have hcons : (c :: st.inputs.eraseIdx i).Nodup := hinpnodup.perm hip
      exact (List.nodup_cons.mp hcons).1
    refine ⟨?_, ?_, ?_, (markKeyAsUsed_inv hwf.regWf hwf.regSep).1,
      (markKeyAsUsed_inv hwf.regWf hwf.regSep).2⟩
    · exact hwf.nodupAddr.perm (hrecs.map AddrRec.address).symm
    · exact hwf.nodupIdx.perm (hrecs.map AddrRec.index).symm
    · intro r hr
      have hrmem : r ∈ st.inputs := (List.eraseIdx_sublist st.inputs i).subset hr
      have hne : r.index ≠ c.index := by
        intro hidx
        have hr_eq : r = c := by
          have hnd2 := hwf.nodupIdx
          exact List.inj_on_of_nodup_map hnd2
            (List.mem_append_right st.addresses hrmem)
            (List.mem_append_right st.addresses hc) hidx
        exact hnotmem (hr_eq ▸ hr)
      exact isUsedKey_markKeyAsUsed_false hwf.regWf (hwf.inputsFresh r hrmem) hne
  · exact hip

theorem spendFold_wf : ∀ (chosen : List AddrRec) (st : State),
    WellFormed st → chosen.Nodup → (∀ c ∈ chosen, c ∈ st.inputs) →
    WellFormed (chosen.foldl spendInputStep st) := by
  intro chosen
  induction chosen with
  | nil =>
    intro st h _ _
    simpa using h
  | cons c chosen ih =>
    intro st hwf hnd hmem
    simp only [List.foldl_cons]
    obtain ⟨hwf', hip⟩ := spendInputStep_char hwf (hmem c (List.mem_cons_self c chosen))
    refine ih _ hwf' (List.Nodup.of_cons hnd) ?_
    intro c' hc'
    have hc'mem : c' ∈ st.inputs := hmem c' (List.mem_cons_of_mem c hc')
    have hc'ne : c' ≠ c := by
      intro heq
      exact (List.nodup_cons.mp hnd).1 (heq ▸ hc')
    rcases List.mem_cons.mp (hip.mem_iff.mp hc'mem) with heq | hmem2
    · exact absurd heq hc'ne
    · exact hmem2

theorem getInputs_chosen_sub {state : State} {value : Int} {res : List AddrRec × Int}
    (h : getInputs state value = .ok res) :
    ∃ rest, (res.1 ++ rest).Perm (eligibleInputs state) := by
  unfold getInputs at h
  split at h
  · exact absurd h (by simp)
  · split at h
    · exact absurd h (by simp)
    · simp only [Except.ok.injEq] at h
      subst h
      obtain ⟨rest, hrest⟩ :=
        selectLoop_perm value (eligibleInputs state).length (eligibleInputs state) 0 []
      exact ⟨rest, by simpa using hrest⟩

theorem hubPrepareTransfers_wf {deriveAddr : Int → Nat → Bool → String}
    {isAddress : Option String → Bool} {state : State} {legs : List Leg}
    {out : State × List BundleEntry}
    (hwf : WellFormed state)
    (h : hubPrepareTransfers deriveAddr isAddress state legs = .ok out) :
    WellFormed out.1 := by
  unfold hubPrepareTransfers at h
  split at h
  · exact absurd h (by simp)
  · rename_i res hres
    split at h
    · exact absurd h (by simp)
    · simp only [Except.ok.injEq] at h
      subst h
      obtain ⟨rest, hrest⟩ := getInputs_chosen_sub hres
      have heligsub : (eligibleInputs state).Sublist state.inputs := List.filter_sublist _
      have helignodup : (eligibleInputs state).Nodup :=
        heligsub.nodup (List.Nodup.of_map AddrRec.address (inputs_map_addr_nodup hwf))
      have hchosennodup : res.1.Nodup :=
        (List.nodup_append.mp (helignodup.perm hrest.symm)).1
      have hchosenmem : ∀ c ∈ res.1, c ∈ state.inputs := by
        intro c hc
        exact heligsub.subset (hrest.mem_iff.mp (List.mem_append_left rest hc))
      exact spendFold_wf res.1 state hwf hchosennodup hchosenmem

theorem step_wf {s s' : State} (hwf : WellFormed s) (h : Step s s') : WellFormed s' := by
  cases h with
  | applyDiff crypto diff _ _ happ => exact applyTransfersDiff_wf hwf happ
  | prepare deriveAddr isAddress legs _ _ txs hprep => exact hubPrepareTransfers_wf hwf hprep

/-- C1: for every state reachable by applying the public operations (diff
application and caller-level prepareTransfers) to a well-formed starting state, no
address identifier appears in both the addresses and the inputs collections, and no
entry of the inputs collection has a key index present in the used-index registry (a
retired index never again backs an Input). -/
theorem state_invariant_reachable (s₀ s : State) (h₀ : WellFormed s₀)
    (hreach : Reachable s₀ s) :
    (∀ a, ¬(a ∈ s.addresses.map AddrRec.address ∧ a ∈ s.inputs.map AddrRec.address)) ∧
    (∀ r ∈ s.inputs, isUsedKey s.indexes r.index = false) := by
  have hwf : WellFormed s := by
    induction hreach with
    | refl => exact h₀
    | step _ hstep ih => exact step_wf ih hstep
  refine ⟨?_, hwf.inputsFresh⟩
  rintro a ⟨ha, hi⟩
  have hnd := hwf.nodupAddr
  rw [recsOf, List.map_append] at hnd
  exact List.disjoint_of_nodup_append hnd ha hi

/-- C1 (witness): the invariant holds at the empty starting state, which is
well-formed and reachable from itself. -/
theorem state_invariant_reachable_witness :
    (∀ a, ¬(a ∈ emptyState.addresses.map AddrRec.address ∧
        a ∈ emptyState.inputs.map AddrRec.address)) ∧
    (∀ r ∈ emptyState.inputs, isUsedKey emptyState.indexes r.index = false) :=
  state_invariant_reachable emptyState emptyState
    ⟨by simp [recsOf, emptyState], by simp [recsOf, emptyState],
     by simp [emptyState], by simp [emptyState],
     by exact List.Pairwise.nil⟩
    Reachable.refl

/-! Remaining claims. -/

/-- C3: in the spec's two-part debit-processing scenario, whose only record is the
Input `{A, index 3, security 2, balance 100}`, the code matches neither part:
both the already-confirmed debit (i) and the unconfirmed debit with a 1-fragment
chain (ii) make `applyTransfersDiff` throw a TypeError at the `security` lookup —
which searches `state.addresses` only — instead of moving the input to Addresses
(and marking index 3) respectively raising InconsistentLocalState. -/
theorem applyDiff_input_debit_typeError :
    applyTransfersDiff cryptoTrue stateC3 [txC3a] = .error .typeError ∧
    applyTransfersDiff cryptoTrue stateC3 [txC3b] = .error .typeError :=
  ⟨rfl, rfl⟩

/-- C4: the final diff filter compares against the misspelled `tx.persistenece`
(always `undefined`), so a transfer recorded locally as unconfirmed whose ledger
status is confirmed is dropped from the diff — the produced diff is empty where the
claim requires the entry to be kept. -/
theorem getTransfersDiff_drops_status_change :
    getTransfersDiff stateC4 [txC4fetched] [true] = [] := rfl

/-- C5 (counterexample): for the pool with balances [10, 2, 4] and target 13 the
code returns chosen [10, 4] with total 14, while the claim's procedure — ties broken
by first-encountered order — returns [10, 2, 4] with total 16: after picking 10 the
remaining need is 3 and the balances 2 and 4 tie at distance 1, but the code's pool
was reordered to [4, 2] by the previous round's sort. -/
theorem getInputs_tiebreak_counterexample :
    getInputs stateC5 13 = .ok ([mkRec "J1" 1 1 10, mkRec "J3" 3 1 4], 14) ∧
    claimSelect (eligibleInputs stateC5) 13 =
      ([mkRec "J1" 1 1 10, mkRec "J2" 2 1 2, mkRec "J3" 3 1 4], 16) ∧
    getInputs stateC5 13 ≠ .ok (claimSelect (eligibleInputs stateC5) 13) := by
  refine ⟨rfl, rfl, ?_⟩
  intro hcontra
  have h1 : getInputs stateC5 13 =
      .ok ([mkRec "J1" 1 1 10, mkRec "J3" 3 1 4], 14) := rfl
  have h2 : claimSelect (eligibleInputs stateC5) 13 =
      ([mkRec "J1" 1 1 10, mkRec "J2" 2 1 2, mkRec "J3" 3 1 4], 16) := rfl
  rw [h1, h2] at hcontra
  simp [mkRec] at hcontra

/-- C5 (amended): each round the selector stably re-sorts the remaining pool by
absolute distance of the balance from the remaining need and takes the head — an
input of minimal distance, with ties broken by the order the previous round's sort
left, not by first-encountered order — and stops as soon as the collected total
reaches the target; for balances [10, 50, 100] and target 60 it returns chosen
[50, 10] with total 60. -/
theorem getInputs_selection_amended :
    (∀ (need : Int) (pool : List AddrRec) (a : AddrRec) (rest : List AddrRec),
      jsSort (fun x y => decide (optimalKey need x ≤ optimalKey need y)) pool =
        a :: rest →
      ∀ b ∈ pool, optimalKey need a ≤ optimalKey need b) ∧
    getInputs stateC5ex 60 = .ok ([mkRec "I2" 2 1 50, mkRec "I1" 1 1 10], 60) := by
  constructor
  · intro need pool a rest h b hb
    have hmin := jsSort_head_min
      (fun x y => decide (optimalKey need x ≤ optimalKey need y))
      (fun x y => by
        rcases le_total (optimalKey need x) (optimalKey need y) with h' | h'
        · exact Or.inl (by simpa using h')
        · exact Or.inr (by simpa using h'))
      (fun x y z hxy hyz => by
        simp only [decide_eq_true_eq] at hxy hyz ⊢
        omega)
      h b hb
    simpa using hmin
  · rfl

/-- C5 (witness): the head-is-minimal clause instantiated at the spec example's
first round: 50 is at least as close to 60 as 10 is. -/
theorem getInputs_selection_amended_witness :
    optimalKey 60 (mkRec "I2" 2 1 50) ≤ optimalKey 60 (mkRec "I1" 1 1 10) :=
  getInputs_selection_amended.1 60
    [mkRec "I1" 1 1 10, mkRec "I2" 2 1 50, mkRec "I3" 3 1 100]
    (mkRec "I2" 2 1 50) [mkRec "I3" 3 1 100, mkRec "I1" 1 1 10] (by decide)
    (mkRec "I1" 1 1 10) (by decide)

/-- C6 (counterexample): the claim's eligible set — positive balance and no
outstanding unconfirmed debit — is empty for a state whose only input carries an
unconfirmed debit of 3, so the claim predicts NoInputsAvailable; the code, whose
filter excludes unconfirmed positive-value transfers instead, selects the input. -/
theorem getInputs_eligibility_counterexample :
    claimEligibleInputs stateC6 = [] ∧
    getInputs stateC6 5 = .ok ([mkRec "I1" 1 1 5], 5) :=
  ⟨rfl, rfl⟩

/-- C6 (amended): the eligible set consists exactly of the inputs with positive
balance and no outstanding unconfirmed CREDIT (positive-value transfer) recorded
against them; selection fails with NoInputsAvailable when that set is empty and with
InsufficientBalance when its total is below the target, both failures occurring
before any input is chosen; otherwise the selection loop runs on the eligible set. -/
theorem getInputs_errors_amended (state : State) (value : Int) :
    (eligibleInputs state = [] → getInputs state value = .error .noInputsAvailable) ∧
    (eligibleInputs state ≠ [] →
      (eligibleInputs state).foldl (fun sum input => sum + input.balance) 0 < value →
      getInputs state value = .error .insufficientBalance) ∧
    (eligibleInputs state ≠ [] →
      ¬((eligibleInputs state).foldl (fun sum input => sum + input.balance) 0 < value) →
      getInputs state value =
        .ok (selectLoop value (eligibleInputs state).length (eligibleInputs state) 0 [])) := by
  refine ⟨?_, ?_, ?_⟩
  · intro h
    unfold getInputs
    rw [if_pos (by simp [h])]
  · intro hne hlt
    unfold getInputs
    rw [if_neg (by simpa [List.length_eq_zero] using hne),
      if_pos (by simpa using hlt)]
  · intro hne hge
    unfold getInputs
    rw [if_neg (by simpa [List.length_eq_zero] using hne),
      if_neg (by simpa using hge)]

/-- C6 (witness): the empty-eligible-set clause instantiated at the empty state. -/
theorem getInputs_errors_amended_witness :
    getInputs emptyState 5 = .error .noInputsAvailable :=
  (getInputs_errors_amended emptyState 5).1 rfl

theorem prepareTransfersBuilder_eq_some {isAddress : Option String → Bool}
    {inputs : List AddrRec} {transfers : List Leg} {remainderAddress : Option String}
    {lastLeg : Leg} (hlast : transfers.getLast? = some lastLeg) :
    prepareTransfersBuilder isAddress inputs transfers remainderAddress =
      if decide (remainderOf inputs transfers > 0) && !isAddress remainderAddress then
        .error .invalidRemainderAddress
      else if decide (remainderOf inputs transfers < 0) then
        .error .insufficientBalance
      else
        .ok (legEntriesOf transfers ++ inputEntriesOf inputs (getTagOf lastLeg) ++
             (if decide (remainderOf inputs transfers > 0) then
                [{ sigCount := 1, address := remainderAddress.getD "",
                   value := remainderOf inputs transfers, tag := getTagOf lastLeg }]
              else [])) := by
  unfold prepareTransfersBuilder
  rw [hlast]

/-- C7: for every call of the transfer builder on a nonempty leg list, with
remainder = sum of input balances minus sum of leg values: a negative remainder
fails with InsufficientBalance; a positive remainder without a valid remainder
address fails with InvalidRemainderAddress; a zero remainder produces exactly the
leg and input entries and no remainder entry; and a positive remainder S with a
valid supplied remainder address produces exactly one trailing entry crediting S to
that address. -/
theorem prepareTransfers_remainder_spec
    (isAddress : Option String → Bool) (inputs : List AddrRec) (transfers : List Leg)
    (remainderAddress : Option String) (lastLeg : Leg)
    (hlast : transfers.getLast? = some lastLeg) :
    (remainderOf inputs transfers < 0 →
      prepareTransfersBuilder isAddress inputs transfers remainderAddress =
        .error .insufficientBalance) ∧
    (remainderOf inputs transfers > 0 → isAddress remainderAddress = false →
      prepareTransfersBuilder isAddress inputs transfers remainderAddress =
        .error .invalidRemainderAddress) ∧
    (remainderOf inputs transfers = 0 →
      prepareTransfersBuilder isAddress inputs transfers remainderAddress =
        .ok (legEntriesOf transfers ++ inputEntriesOf inputs (getTagOf lastLeg))) ∧
    (∀ a, remainderAddress = some a → remainderOf inputs transfers > 0 →
      isAddress remainderAddress = true →
      prepareTransfersBuilder isAddress inputs transfers remainderAddress =
        .ok (legEntriesOf transfers ++ inputEntriesOf inputs (getTagOf lastLeg) ++
          [{ sigCount := 1, address := a, value := remainderOf inputs transfers,
             tag := getTagOf lastLeg }])) := by
  rw [prepareTransfersBuilder_eq_some hlast]
  refine ⟨?_, ?_, ?_, ?_⟩
  · intro hneg
    rw [if_neg (by
        simp only [Bool.and_eq_true, decide_eq_true_eq]
        rintro ⟨h1, _⟩
        omega),
      if_pos (by simpa using hneg)]
  · intro hpos hfalse
    rw [if_pos (by simp [hfalse, hpos])]
  · intro hzero
    rw [if_neg (by
        simp only [Bool.and_eq_true, decide_eq_true_eq]
        rintro ⟨h1, _⟩
        omega),
      if_neg (by simp only [decide_eq_true_eq]; omega),
      if_neg (by simp only [decide_eq_true_eq]; omega)]
    simp
  · intro a hsome hpos htrue
    rw [if_neg (by simp [htrue]),
      if_neg (by simp only [decide_eq_true_eq]; omega),
      if_pos (by simpa using hpos), hsome]
    rfl

/-- C7 (witness): inputs of total balance 10 against a single leg of value 7, with
the valid remainder address R: the builder appends exactly one trailing entry
crediting the remainder 3 to R. -/
theorem prepareTransfers_remainder_spec_witness :
    prepareTransfersBuilder (fun o => o == some "R") [mkRec "A" 1 2 10]
      [{ address := "B", value := 7, tag := none }] (some "R") =
      .ok (legEntriesOf [{ address := "B", value := 7, tag := none }] ++
        inputEntriesOf [mkRec "A" 1 2 10]
          (getTagOf { address := "B", value := 7, tag := none }) ++
        [{ sigCount := 1, address := "R",
           value := remainderOf [mkRec "A" 1 2 10]
             [{ address := "B", value := 7, tag := none }],
           tag := getTagOf { address := "B", value := 7, tag := none } }]) :=
  (prepareTransfers_remainder_spec (fun o => o == some "R") [mkRec "A" 1 2 10]
    [{ address := "B", value := 7, tag := none }] (some "R")
    { address := "B", value := 7, tag := none } rfl).2.2.2 "R" rfl (by decide) (by decide)

/-- C8: the caller-level prepareTransfers on a state with one input of balance 5 and
one leg spending the full balance succeeds, moves the input to addresses and marks
its key index used — but the state's transfer ledger stays empty: the source's
`stateCopy.transfers.concat(...)` discards its result, so the built legs are never
appended, contradicting the claim (and the source's own comment). -/
theorem hubPrepareTransfers_transfers_not_appended :
    hubPrepareTransfers (fun _ _ _ => "NEW") (fun o => o.isSome) stateC8 [legC8] =
      .ok ({ addresses := [mkRec "A" 1 1 5], inputs := [], transfers := [],
             indexes := [Entry.point 1], keyIndex := some 2 },
           [{ sigCount := 1, address := "A", value := -5, tag := pad27 "" },
            { sigCount := 1, address := "B", value := 5, tag := pad27 "" }]) := rfl

/-- C9: diff application is not idempotent: applying the diff with one unconfirmed,
invalidly-signed debit once succeeds (the debited address is promoted to inputs and
the transfer is recorded), but applying the same diff to the result throws a
TypeError, because the `security` lookup of the debit-processing loop searches
`state.addresses` only and the record now lives in `state.inputs`. -/
theorem applyDiff_not_idempotent :
    applyTransfersDiff cryptoTrue stateC9 [txC9] = .ok stateC9' ∧
    applyTransfersDiff cryptoTrue stateC9' [txC9] = .error .typeError :=
  ⟨rfl, rfl⟩

/-- C10: the code treats key index 0 as missing: `getNewAddress` fails with the
last-key-index error for every state whose cursor equals 0 (not only when absent),
and during diff application an accepted confirmed debit against a known address
record whose key index is 0 raises InconsistentLocalState even though the record
exists. -/
theorem index_zero_treated_as_missing :
    (∀ (deriveAddr : Int → Nat → Bool → String) (s : State) (security : Nat)
        (checksum : Bool), s.keyIndex = some 0 →
      getNewAddress deriveAddr s security checksum = .error .lastKeyIndexNotFound) ∧
    (∀ (crypto : Crypto) (s : State) (tx : Tx) (r : AddrRec),
      s.addresses.find? (fun a => a.address == tx.address) = some r →
      r.index = 0 → tx.value < 0 → tx.persistence = some true →
      findIndex (fun input => input.address == tx.address) s.inputs = none →
      applyTransfersDiff crypto s [tx] = .error .inconsistentLocalState) := by
  constructor
  · intro deriveAddr s security checksum h
    unfold getNewAddress
    rw [h]
    simp
  · intro crypto s tx r hfind hidx hval hpers hinputs
    have hstep : processSpendingStep crypto
        ([tx].filter fun t => decide (t.value ≤ 0)) (s, ([] : List String)) tx =
        .error .inconsistentLocalState := by
      unfold processSpendingStep
      rw [hfind]
      simp [hpers, hinputs, hidx, truthy]
    have hfe : foldE (processSpendingStep crypto
        ([tx].filter fun t => decide (t.value ≤ 0))) (s, ([] : List String)) [tx] =
        .error .inconsistentLocalState := by
      unfold foldE
      rw [hstep]
    unfold applyTransfersDiff
    have hfilter : [tx].filter (fun t => decide (t.value < 0)) = [tx] := by
      have hd : decide (tx.value < 0) = true := by simpa using hval
      simp [hd]
    rw [hfilter, hfe]

/-- C10 (witness): both clauses instantiated at the concrete index-0 state. -/
theorem index_zero_treated_as_missing_witness :
    getNewAddress (fun _ _ _ => "X") stateC10 2 true = .error .lastKeyIndexNotFound ∧
    applyTransfersDiff cryptoTrue stateC10 [txC10] = .error .inconsistentLocalState :=
  ⟨index_zero_treated_as_missing.1 (fun _ _ _ => "X") stateC10 2 true rfl,
   index_zero_treated_as_missing.2 cryptoTrue stateC10 txC10 (mkRec "A" 0 2 7)
     rfl rfl (by decide) rfl rfl⟩

end IotaHub
